import Mathlib

/-!
Formal model of the Smart File Organizer core (`automation.py`).

The development shallowly embeds the watch-and-organize subsystem:

* `get_file_category`   — `FileHandler._get_file_category` (first match over the
  insertion-ordered category map);
* `get_unique_path`     — `FileHandler._get_unique_path` (collision-safe rename,
  `name_1.ext`, `name_2.ext`, …);
* `organize_file`       — `FileHandler._organize_file` (hidden-file check,
  classification, destination creation, collision-safe move);
* `organize_fileE`      — the same function under an explicit I/O-error
  environment, modelling its `try`/`except` wrapper;
* `organize_existing_files` — `FileOrganizerApp.organize_existing_files`
  (the one-shot sweep);
* `select_folder`, `start_monitoring` — the corresponding
  `FileOrganizerApp` methods as a pure state machine.

The filesystem is modelled as a finite set of regular files plus a finite set
of directories; `pathlib` name splitting (`Path.stem` / `Path.suffix`) and
Python decimal rendering of the rename counter are embedded explicitly.
-/

/-- Character strings, modelled as lists of characters. -/
abbrev Str := List Char

/-- The category map: an ordered association list from category name to its
extension list, modelling the insertion-ordered Python dict
`config.file_categories` as iterated by `.items()`. -/
abbrev CatMap := List (Str × List Str)

/-- A filesystem path, split the way `pathlib` exposes it: the parent
directory as a list of components, and the final component (`Path.name`). -/
structure FsPath where
  parent : List Str
  name : Str
deriving DecidableEq

/-- The full component list of a path. -/
def FsPath.toComponents (p : FsPath) : List Str := p.parent ++ [p.name]

/-- Filesystem state: the regular files and the directories present. -/
structure FS where
  files : List FsPath
  dirs : List (List Str)
deriving DecidableEq

/-- `Path.exists()`: true when a regular file or a directory is present at
that path. -/
def pathExists (fs : FS) (p : FsPath) : Prop :=
  p ∈ fs.files ∨ p.toComponents ∈ fs.dirs

instance (fs : FS) (p : FsPath) : Decidable (pathExists fs p) :=
  inferInstanceAs (Decidable (_ ∨ _))

/-- `dest_folder.mkdir(exist_ok=True)`: create the directory when absent;
an already existing directory is left alone. -/
def FS.mkdir (fs : FS) (d : List Str) : FS :=
  if d ∈ fs.dirs then fs else ⟨fs.files, d :: fs.dirs⟩

/-- `shutil.move(src, dst)` onto a fresh destination: the source file
disappears from the filesystem and the destination file appears. -/
def FS.move (fs : FS) (src dst : FsPath) : FS :=
  ⟨dst :: fs.files.erase src, fs.dirs⟩

/-- Decimal rendering of a natural number, as Python `str` renders the
rename counter inside the f-string.  The recursion is driven by a fuel
argument; `decimal` supplies fuel `n`, which the correctness lemmas show is
always enough (`n / 10 < n` at every recursive step). -/
def decimalAux : Nat → Nat → Str
  | 0, n => [Nat.digitChar n]
  | fuel + 1, n =>
    if n < 10 then [Nat.digitChar n]
    else decimalAux fuel (n / 10) ++ [Nat.digitChar (n % 10)]

/-- Python `str(n)` for a natural number `n`. -/
def decimal (n : Nat) : Str := decimalAux n n

/-- Scan a (reversed) component name for its first `'.'`: returns the
characters before the first dot and the characters after it, or `none` when
the name has no dot.  Applied to `name.reverse` this locates the LAST dot of
`name`, which is how `pathlib` finds the extension. -/
def revSplitAtDot : List Char → Option (List Char × List Char)
  | [] => none
  | c :: rest =>
    if c = '.' then some ([], rest)
    else
      match revSplitAtDot rest with
      | some (pre, post) => some (c :: pre, post)
      | none => none

/-- `pathlib.PurePath.suffix` of a final component: the part of the name from
its last dot on, provided that dot is neither the first nor the last
character; otherwise the empty string.  (`"a.jpg" → ".jpg"`, `".hidden" → ""`,
`"a." → ""`, `"a.tar.gz" → ".gz"`.) -/
def pySuffix (name : Str) : Str :=
  match revSplitAtDot name.reverse with
  | some (pre, post) => if pre ≠ [] ∧ post ≠ [] then '.' :: pre.reverse else []
  | none => []

/-- `pathlib.PurePath.stem`: the name with `pySuffix` removed. -/
def pyStem (name : Str) : Str :=
  match revSplitAtDot name.reverse with
  | some (pre, post) => if pre ≠ [] ∧ post ≠ [] then post.reverse else name
  | none => name

/-- Python `str.lower()` restricted to ASCII, as applied to extensions. -/
def strLower (s : Str) : Str := s.map Char.toLower

/-- `FileHandler._get_file_category`: return the first category, in the
map's iteration order, whose extension list contains `file_ext`; `none`
otherwise. -/
def get_file_category (cats : CatMap) (file_ext : Str) : Option Str :=
  match cats with
  | [] => none
  | (category, extensions) :: rest =>
    if file_ext ∈ extensions then some category
    else get_file_category rest file_ext

/-- The specification's `classify` contract (spec §4.1): lowercase the input
extension, then look it up by first match.  `_organize_file` performs the
lowercasing at its call site (`file_path.suffix.lower()`, automation.py
line 49). -/
def classify (cats : CatMap) (ext : Str) : Option Str :=
  get_file_category cats (strLower ext)

/-- The `counter`-th rename candidate name: `f"{stem}_{counter}{suffix}"`. -/
def candName (stem sfx : Str) (k : Nat) : Str :=
  stem ++ '_' :: (decimal k ++ sfx)

/-- The `counter`-th rename candidate path, in the same parent directory. -/
def cand (parent : List Str) (stem sfx : Str) (k : Nat) : FsPath :=
  ⟨parent, candName stem sfx k⟩

/-- The `while path.exists()` loop of `FileHandler._get_unique_path`.
`stem`, `sfx` and `parent` are fixed before the loop, exactly as in the
source; `path` and `counter` are the loop state.  The fuel argument bounds
the number of iterations; `get_unique_path` passes fuel that the lemma
`uniqueLoop_eq_of_free` shows always suffices, so the embedding agrees with
the unbounded Python loop. -/
def uniqueLoop (fs : FS) (parent : List Str) (stem sfx : Str) :
    Nat → FsPath → Nat → FsPath
  | 0, path, _ => path
  | fuel + 1, path, counter =>
    if pathExists fs path then
      uniqueLoop fs parent stem sfx fuel (cand parent stem sfx counter) (counter + 1)
    else path

/-- `FileHandler._get_unique_path`: return `path` unchanged when nothing
exists there, otherwise insert `_1`, `_2`, … before the extension until an
unused path is found. -/
def get_unique_path (fs : FS) (path : FsPath) : FsPath :=
  if pathExists fs path then
    uniqueLoop fs path.parent (pyStem path.name) (pySuffix path.name)
      (fs.files.length + fs.dirs.length + 2) path 1
  else path

/-- Why a single file organization was skipped. -/
inductive SkipReason where
  | hidden
  | noCategory
deriving DecidableEq

/-- The outcome of organizing one file (spec `OrganizeOutcome`). -/
inductive Outcome where
  | moved (category : Str) (finalName : Str)
  | skipped (reason : SkipReason)
  | failed (msg : Str)
deriving DecidableEq

/-- `FileHandler._organize_file` on the success path (no I/O errors): skip
hidden/system names (leading `'.'` or `'~'`), classify the lowercased suffix
(`if not category` in Python also rejects an empty category name), create the
destination directory, pick a collision-free destination, and move. -/
def organize_file (cats : CatMap) (src : List Str) (fs : FS) (p : FsPath) :
    FS × Outcome :=
  if p.name.head? = some '.' ∨ p.name.head? = some '~' then
    (fs, .skipped .hidden)
  else
    match get_file_category cats (strLower (pySuffix p.name)) with
    | none => (fs, .skipped .noCategory)
    | some category =>
      if category = [] then (fs, .skipped .noCategory)
      else
        let fs1 := fs.mkdir (src ++ [category])
        let dest := get_unique_path fs1 ⟨src ++ [category], p.name⟩
        (fs1.move p dest, .moved category dest.name)

/-- Which of the fallible filesystem steps of `_organize_file` raise in a
given run: directory creation, the `exists()` probes of the collision loop,
or the move itself.  A `some msg` means that step raises `msg`. -/
structure IOEnv where
  mkdirErr : Option Str
  uniqueErr : Option Str
  moveErr : Option Str
deriving DecidableEq

/-- `FileHandler._organize_file` including its `try`/`except` wrapper: any
exception raised by a filesystem step is caught and reported as a `failed`
outcome, with the filesystem left as the steps already executed left it. -/
def organize_fileE (env : IOEnv) (cats : CatMap) (src : List Str) (fs : FS)
    (p : FsPath) : FS × Outcome :=
  if p.name.head? = some '.' ∨ p.name.head? = some '~' then
    (fs, .skipped .hidden)
  else
    match get_file_category cats (strLower (pySuffix p.name)) with
    | none => (fs, .skipped .noCategory)
    | some category =>
      if category = [] then (fs, .skipped .noCategory)
      else
        match env.mkdirErr with
        | some m => (fs, .failed m)
        | none =>
          let fs1 := fs.mkdir (src ++ [category])
          match env.uniqueErr with
          | some m => (fs1, .failed m)
          | none =>
            let dest := get_unique_path fs1 ⟨src ++ [category], p.name⟩
            match env.moveErr with
            | some m => (fs1, .failed m)
            | none => (fs1.move p dest, .moved category dest.name)

/-- The monitoring loop: each creation event carries the file that appeared
and the I/O behaviour of its organize attempt.  Every event is handled by
`organize_fileE`; because that function catches its own exceptions, the loop
is a total fold that reaches every subsequent event. -/
def monitorLoop (cats : CatMap) (src : List Str) :
    List (IOEnv × FsPath) → FS → FS × List Outcome
  | [], fs => (fs, [])
  | (env, p) :: rest, fs =>
    let r := organize_fileE env cats src fs p
    let r' := monitorLoop cats src rest r.1
    (r'.1, r.2 :: r'.2)

/-- The `for file_path in source_path.iterdir()` loop body of
`FileOrganizerApp.organize_existing_files`, over the snapshot of top-level
regular files, counting the files actually moved. -/
def sweepGo (cats : CatMap) (src : List Str) :
    List FsPath → FS → Nat → FS × Nat
  | [], fs, n => (fs, n)
  | q :: rest, fs, n =>
    match organize_file cats src fs q with
    | (fs', .moved _ _) => sweepGo cats src rest fs' (n + 1)
    | (fs', _) => sweepGo cats src rest fs' n

/-- `FileOrganizerApp.organize_existing_files`: organize every top-level
regular file of the source directory (non-recursive; `is_file()` excludes
directories), returning the new filesystem and the organized count. -/
def organize_existing_files (cats : CatMap) (src : List Str) (fs : FS) :
    FS × Nat :=
  sweepGo cats src (fs.files.filter (fun q => decide (q.parent = src))) fs 0

/-- Logger levels of `FileOrganizerLogger`. -/
inductive Level where
  | info
  | success
  | warning
  | error
deriving DecidableEq

/-- The application state of `FileOrganizerApp` that the lifecycle methods
touch: the selected folder, the worker session (`some running?` when a
worker object exists), the filesystem, and the emitted log. -/
structure AppState where
  source_folder : Option (List Str)
  worker : Option Bool
  fs : FS
  log : List (Level × Str)
deriving DecidableEq

/-- `FileOrganizerApp.select_folder` after the dialog returned `chosen`:
reject an inaccessible directory (`os.access(folder, R_OK | W_OK)`) with an
error and no further effect; otherwise record the folder and report the
count of top-level files. -/
def select_folder (readable writable : List Str → Bool) (s : AppState)
    (chosen : Option (List Str)) : AppState :=
  match chosen with
  | none => s
  | some folder =>
    if readable folder && writable folder then
      { s with
        source_folder := some folder,
        log := s.log ++
          [(Level.info, "Folder Selected".data),
           (Level.info, "Found ".data ++
             decimal (s.fs.files.filter
               (fun q => decide (q.parent = folder))).length ++
             " files to organize".data)] }
    else
      { s with log := s.log ++
          [(Level.error, "Selected folder is not accessible!".data)] }

/-- `FileOrganizerApp.start_monitoring`: warn when no folder is selected,
warn (and change nothing else) when a worker is already running, otherwise
sweep the existing files and start a fresh monitoring session. -/
def start_monitoring (cats : CatMap) (s : AppState) : AppState :=
  match s.source_folder with
  | none =>
    { s with log := s.log ++
        [(Level.warning, "Please select a folder first!".data)] }
  | some src =>
    match s.worker with
    | some true =>
      { s with log := s.log ++
          [(Level.warning, "Monitoring is already running!".data)] }
    | _ =>
      let r := organize_existing_files cats src s.fs
      { s with
        fs := r.1,
        worker := some true,
        log := s.log ++
          [(Level.info, "Organizing existing files...".data),
           (Level.info, "Organized ".data ++ decimal r.2 ++
             " existing files".data)] }

/-- Numeric value of a decimal digit character. -/
def decVal (c : Char) : Nat := c.toNat - 48

/-- Read a decimal digit string back as a number (left fold, base 10). -/
def decode (l : Str) : Nat := l.foldl (fun a c => 10 * a + decVal c) 0

/-- The sequence of paths the collision loop probes, starting from `path`
with the counter at `counter`: first `path` itself, then the successive
rename candidates. -/
def seqF (parent : List Str) (stem sfx : Str) (path : FsPath) (counter : Nat) :
    Nat → FsPath
  | 0 => path
  | i + 1 => cand parent stem sfx (counter + i)

/-- The condition under which `_organize_file` skips a file: hidden/system
name, no category for its extension, or a falsy (empty) category name. -/
def skipCond (cats : CatMap) (p : FsPath) : Prop :=
  (p.name.head? = some '.' ∨ p.name.head? = some '~') ∨
  get_file_category cats (strLower (pySuffix p.name)) = none ∨
  get_file_category cats (strLower (pySuffix p.name)) = some []

instance (cats : CatMap) (p : FsPath) : Decidable (skipCond cats p) :=
  inferInstanceAs (Decidable (_ ∨ _ ∨ _))

/-- Scenario B of the spec: the category map `{"Images": [".jpg"]}`. -/
def scenCats : CatMap := [("Images".data, [".jpg".data])]

/-- Scenario B: the source directory. -/
def scenSrc : List Str := ["source".data]

/-- Scenario B: `source/a.jpg` is about to be organized while
`source/Images/a.jpg` already exists. -/
def scenFs : FS :=
  ⟨[⟨["source".data], "a.jpg".data⟩,
    ⟨["source".data, "Images".data], "a.jpg".data⟩],
   [["source".data], ["source".data, "Images".data]]⟩

/-- Scenario B: the newly appearing top-level `a.jpg`. -/
def scenP : FsPath := ⟨["source".data], "a.jpg".data⟩

/-- Scenario B: the already occupied destination `source/Images/a.jpg`. -/
def scenDest : FsPath := ⟨["source".data, "Images".data], "a.jpg".data⟩

/-- A one-file source directory used to exercise the organize step. -/
def w1Fs : FS := ⟨[⟨["source".data], "a.jpg".data⟩], [["source".data]]⟩

/-- The single top-level file of `w1Fs`. -/
def w1P : FsPath := ⟨["source".data], "a.jpg".data⟩

/-- An I/O environment in which the move itself raises `disk full`. -/
def wEnv : IOEnv := ⟨none, none, some "disk full".data⟩

/-- A two-category map used to exercise classification. -/
def w5Cats : CatMap :=
  [("Images".data, [".jpg".data]), ("Documents".data, [".pdf".data])]

/-- A source directory holding only an unclassifiable `notes.txt`. -/
def w6Fs : FS := ⟨[⟨["source".data], "notes.txt".data⟩], [["source".data]]⟩

/-- A source directory with one classifiable and one unclassifiable file. -/
def w7Fs : FS :=
  ⟨[⟨["s".data], "a.jpg".data⟩, ⟨["s".data], "b.xyz".data⟩], [["s".data]]⟩

/-- An application state whose monitoring session is already running. -/
def w8State : AppState := ⟨some ["s".data], some true, w7Fs, []⟩

/-- A directory holding a file named `a.` (trailing dot), which collides. -/
def w10Fs : FS := ⟨[⟨["d".data], "a.".data⟩], []⟩

/-- The colliding path named `a.`. -/
def w10P : FsPath := ⟨["d".data], "a.".data⟩

/-- Scenario A of the spec: an unobstructed `a.jpg` is moved to
`Images/a.jpg` unchanged. -/
theorem scenario_a_moved :
    (organize_file scenCats scenSrc w1Fs w1P).2 =
      .moved "Images".data "a.jpg".data := by decide

/-- The name-splitting model agrees with `pathlib` on representative
names (`suffix` of `a.tar.gz`, `.hidden`, `a.`; `stem` of `a.jpg`). -/
theorem pathlib_splitting_examples :
    pySuffix "a.tar.gz".data = ".gz".data ∧ pySuffix ".hidden".data = [] ∧
    pySuffix "a.".data = [] ∧ pyStem "a.jpg".data = "a".data := by decide

theorem decVal_digitChar {d : Nat} (h : d < 10) : decVal (Nat.digitChar d) = d := by
  interval_cases d <;> decide

theorem decode_append (l : Str) (c : Char) :
    decode (l ++ [c]) = 10 * decode l + decVal c := by
  simp [decode, List.foldl_append]

theorem decode_decimalAux : ∀ fuel n, n ≤ fuel → decode (decimalAux fuel n) = n := by
  intro fuel
  induction fuel with
  | zero =>
    intro n hn
    interval_cases n
    decide
  | succ f ih =>
    intro n hn
    by_cases h10 : n < 10
    · simp only [decimalAux, if_pos h10]
      simp [decode, decVal_digitChar h10]
    · have hdiv : n / 10 ≤ f := by
        have : n / 10 < n := Nat.div_lt_self (by omega) (by omega)
        omega
      simp only [decimalAux, if_neg h10]
      rw [decode_append, ih _ hdiv, decVal_digitChar (Nat.mod_lt _ (by omega))]
      omega

theorem decode_decimal (n : Nat) : decode (decimal n) = n :=
  decode_decimalAux n n le_rfl

theorem decimal_inj : Function.Injective decimal := by
  intro a b h
  rw [← decode_decimal a, ← decode_decimal b, h]

theorem ne_dot_of_mem_decimalAux :
    ∀ fuel n, n ≤ fuel → ∀ c ∈ decimalAux fuel n, c ≠ '.' := by
  intro fuel
  induction fuel with
  | zero =>
    intro n hn c hc
    interval_cases n
    simp only [decimalAux, List.mem_singleton] at hc
    subst hc
    decide
  | succ f ih =>
    intro n hn c hc
    by_cases h10 : n < 10
    · simp only [decimalAux, if_pos h10, List.mem_singleton] at hc
      subst hc
      interval_cases n <;> decide
    · simp only [decimalAux, if_neg h10, List.mem_append, List.mem_singleton] at hc
      rcases hc with hc | hc
      · have hdiv : n / 10 ≤ f := by
          have : n / 10 < n := Nat.div_lt_self (by omega) (by omega)
          omega
        exact ih (n / 10) hdiv c hc
      · subst hc
        have hlt : n % 10 < 10 := Nat.mod_lt _ (by omega)
        interval_cases h : n % 10 <;> decide

theorem decimal_ne_dot (n : Nat) : '.' ∉ decimal n := fun h =>
  ne_dot_of_mem_decimalAux n n le_rfl '.' h rfl

theorem revSplitAtDot_some : ∀ (r pre post : List Char),
    revSplitAtDot r = some (pre, post) → r = pre ++ '.' :: post ∧ '.' ∉ pre := by
  intro r
  induction r with
  | nil => intro pre post h; simp [revSplitAtDot] at h
  | cons c rest ih =>
    intro pre post h
    by_cases hc : c = '.'
    · subst hc
      have hh : revSplitAtDot ('.' :: rest) = some ([], rest) := by
        simp [revSplitAtDot]
      rw [hh] at h
      have h1 : pre = [] ∧ post = rest := by
        have := h.symm
        simp only [Option.some.injEq, Prod.mk.injEq] at this
        exact this
      obtain ⟨hp, hq⟩ := h1
      subst hp; subst hq
      simp
    · simp only [revSplitAtDot, if_neg hc] at h
      cases heq : revSplitAtDot rest with
      | none => rw [heq] at h; cases h
      | some pr =>
        obtain ⟨pre', post'⟩ := pr
        rw [heq] at h
        simp only [Option.some.injEq, Prod.mk.injEq] at h
        obtain ⟨h1, h2⟩ := h
        obtain ⟨hr, hd⟩ := ih pre' post' heq
        subst h2
        rw [← h1]
        refine ⟨by rw [hr]; simp, ?_⟩
        intro hm
        rcases List.mem_cons.mp hm with hm | hm
        · exact hc hm.symm
        · exact hd hm

theorem revSplitAtDot_append (pre post : List Char) (h : '.' ∉ pre) :
    revSplitAtDot (pre ++ '.' :: post) = some (pre, post) := by
  induction pre with
  | nil => simp [revSplitAtDot]
  | cons c rest ih =>
    have hc : ¬ c = '.' := fun hh => h (by rw [hh]; exact List.mem_cons_self _ _)
    have h' : '.' ∉ rest := fun hm => h (List.mem_cons_of_mem _ hm)
    simp [revSplitAtDot, hc, ih h']

theorem revSplitAtDot_isSome (r : List Char) (h : '.' ∈ r) :
    ∃ pr po, revSplitAtDot r = some (pr, po) := by
  induction r with
  | nil => cases h
  | cons c rest ih =>
    by_cases hc : c = '.'
    · exact ⟨[], rest, by simp [revSplitAtDot, hc]⟩
    · have hr : '.' ∈ rest := by
        rcases List.mem_cons.mp h with h1 | h1
        · exact absurd h1.symm hc
        · exact h1
      obtain ⟨pr, po, hpp⟩ := ih hr
      exact ⟨c :: pr, po, by simp [revSplitAtDot, hc, hpp]⟩

theorem dot_not_mem_of_revSplitAtDot_none (r : List Char)
    (h : revSplitAtDot r = none) : '.' ∉ r := by
  intro hm
  obtain ⟨pr, po, hpp⟩ := revSplitAtDot_isSome r hm
  rw [hpp] at h
  cases h

theorem revSplitAtDot_none (r : List Char) (h : '.' ∉ r) :
    revSplitAtDot r = none := by
  cases heq : revSplitAtDot r with
  | none => rfl
  | some pr =>
    obtain ⟨pre, post⟩ := pr
    obtain ⟨hr, _⟩ := revSplitAtDot_some _ _ _ heq
    exact absurd (by rw [hr]; simp : '.' ∈ r) h

theorem pySuffix_candName (name : Str) (k : Nat) (h : name.getLast? ≠ some '.') :
    pySuffix (candName (pyStem name) (pySuffix name) k) = pySuffix name := by
  have hhead : name.reverse.head? ≠ some '.' := by
    rwa [List.head?_reverse]
  cases heq : revSplitAtDot name.reverse with
  | none =>
    have hnd : '.' ∉ name.reverse := dot_not_mem_of_revSplitAtDot_none _ heq
    have hsfx : pySuffix name = [] := by rw [pySuffix, heq]
    have hstem : pyStem name = name := by rw [pyStem, heq]
    rw [hsfx, hstem]
    have hrev : (candName name [] k).reverse =
        (decimal k).reverse ++ '_' :: name.reverse := by
      simp [candName]
    have hnone : revSplitAtDot ((decimal k).reverse ++ '_' :: name.reverse) = none := by
      apply revSplitAtDot_none
      intro hm
      rcases List.mem_append.mp hm with hm | hm
      · exact decimal_ne_dot k (List.mem_reverse.mp hm)
      · rcases List.mem_cons.mp hm with hm | hm
        · cases hm
        · exact hnd hm
    rw [pySuffix, hrev, hnone]
  | some pr =>
    obtain ⟨pre, post⟩ := pr
    obtain ⟨hr, hdp⟩ := revSplitAtDot_some _ _ _ heq
    by_cases hcond : pre ≠ [] ∧ post ≠ []
    · have hsfx : pySuffix name = '.' :: pre.reverse := by
        rw [pySuffix, heq]
        exact if_pos hcond
      have hstem : pyStem name = post.reverse := by
        rw [pyStem, heq]
        exact if_pos hcond
      rw [hsfx, hstem]
      have hrev : (candName post.reverse ('.' :: pre.reverse) k).reverse =
          pre ++ '.' :: ((decimal k).reverse ++ '_' :: post) := by
        simp [candName]
      rw [pySuffix, hrev, revSplitAtDot_append _ _ hdp]
      exact if_pos ⟨hcond.1, by simp⟩
    · have hsfx : pySuffix name = [] := by
        rw [pySuffix, heq]
        exact if_neg hcond
      have hstem : pyStem name = name := by
        rw [pyStem, heq]
        exact if_neg hcond
      rw [hsfx, hstem]
      have hpre : pre ≠ [] := by
        intro hp
        subst hp
        rw [hr] at hhead
        simp at hhead
      have hpost : post = [] := by
        rcases not_and_or.mp hcond with h1 | h1
        · exact absurd (not_not.mp h1) hpre
        · exact not_not.mp h1
      subst hpost
      have hrev : (candName name [] k).reverse =
          ((decimal k).reverse ++ '_' :: pre) ++ '.' :: [] := by
        simp [candName, hr]
      have hnotin : '.' ∉ (decimal k).reverse ++ '_' :: pre := by
        intro hm
        rcases List.mem_append.mp hm with hm | hm
        · exact decimal_ne_dot k (List.mem_reverse.mp hm)
        · rcases List.mem_cons.mp hm with hm | hm
          · cases hm
          · exact hdp hm
      rw [pySuffix, hrev, revSplitAtDot_append _ _ hnotin]
      exact if_neg (by simp)

theorem candName_inj (stem sfx : Str) : Function.Injective (candName stem sfx) := by
  intro a b h
  unfold candName at h
  have h1 := List.append_cancel_left h
  have h2 : decimal a ++ sfx = decimal b ++ sfx := by
    injection h1 with hh h2
  exact decimal_inj (List.append_cancel_right h2)

theorem cand_injective (parent : List Str) (stem sfx : Str) :
    Function.Injective (cand parent stem sfx) := by
  intro a b h
  exact candName_inj stem sfx (congrArg FsPath.name h)

theorem seqF_shift (parent : List Str) (stem sfx : Str) (path : FsPath)
    (counter : Nat) : ∀ i,
      seqF parent stem sfx (cand parent stem sfx counter) (counter + 1) i =
        seqF parent stem sfx path counter (i + 1) := by
  intro i
  cases i with
  | zero => simp [seqF]
  | succ j =>
    simp only [seqF]
    congr 1
    omega

theorem uniqueLoop_eq (fs : FS) (parent : List Str) (stem sfx : Str) :
    ∀ fuel path counter i₀, i₀ < fuel →
      ¬ pathExists fs (seqF parent stem sfx path counter i₀) →
      (∀ j, j < i₀ → pathExists fs (seqF parent stem sfx path counter j)) →
      uniqueLoop fs parent stem sfx fuel path counter =
        seqF parent stem sfx path counter i₀ := by
  intro fuel
  induction fuel with
  | zero => intro path counter i₀ h; omega
  | succ f ih =>
    intro path counter i₀ hlt hfree hbusy
    cases i₀ with
    | zero =>
      simp only [seqF] at hfree
      simp only [uniqueLoop, if_neg hfree]
      simp [seqF]
    | succ i =>
      have hex : pathExists fs path := by
        have := hbusy 0 (Nat.succ_pos i)
        simpa [seqF] using this
      calc uniqueLoop fs parent stem sfx (f + 1) path counter
          = uniqueLoop fs parent stem sfx f (cand parent stem sfx counter)
              (counter + 1) := by
            simp only [uniqueLoop, if_pos hex]
        _ = seqF parent stem sfx (cand parent stem sfx counter) (counter + 1) i := by
            apply ih _ _ i (by omega)
            · rw [seqF_shift parent stem sfx path counter i]
              exact hfree
            · intro j hj
              rw [seqF_shift parent stem sfx path counter j]
              exact hbusy (j + 1) (by omega)
        _ = seqF parent stem sfx path counter (i + 1) :=
            seqF_shift parent stem sfx path counter i

theorem exists_free_cand (fs : FS) (parent : List Str) (stem sfx : Str) :
    ∃ k, 1 ≤ k ∧ k ≤ fs.files.length + fs.dirs.length + 1 ∧
      ¬ pathExists fs (cand parent stem sfx k) := by
  by_contra hcon
  push_neg at hcon
  set N := fs.files.length + fs.dirs.length with hN
  have hall : ∀ i, i < N + 1 → (cand parent stem sfx (i + 1)).toComponents ∈
      fs.files.map FsPath.toComponents ++ fs.dirs := by
    intro i hi
    have hc := hcon (i + 1) (by omega) (by omega)
    rcases hc with hf | hd
    · exact List.mem_append.mpr (Or.inl (List.mem_map_of_mem _ hf))
    · exact List.mem_append.mpr (Or.inr hd)
  have hinj : Function.Injective
      (fun i : Nat => (cand parent stem sfx (i + 1)).toComponents) := by
    intro a b hab
    simp only [FsPath.toComponents, cand] at hab
    have h1 := List.append_cancel_left hab
    have h2 : candName stem sfx (a + 1) = candName stem sfx (b + 1) := by
      injection h1 with h2 hh
    have := candName_inj stem sfx h2
    omega
  have hnd : ((List.range (N + 1)).map
      (fun i => (cand parent stem sfx (i + 1)).toComponents)).Nodup :=
    List.Nodup.map hinj (List.nodup_range _)
  have hsub : ∀ x ∈ (List.range (N + 1)).map
      (fun i => (cand parent stem sfx (i + 1)).toComponents),
      x ∈ fs.files.map FsPath.toComponents ++ fs.dirs := by
    intro x hx
    simp only [List.mem_map, List.mem_range] at hx
    obtain ⟨i, hi, rfl⟩ := hx
    exact hall i hi
  have hcard1 : ((List.range (N + 1)).map
      (fun i => (cand parent stem sfx (i + 1)).toComponents)).toFinset.card =
      N + 1 := by
    rw [List.toFinset_card_of_nodup hnd]
    simp
  have hsubf : ((List.range (N + 1)).map
      (fun i => (cand parent stem sfx (i + 1)).toComponents)).toFinset ⊆
      (fs.files.map FsPath.toComponents ++ fs.dirs).toFinset := by
    intro x hx
    rw [List.mem_toFinset] at hx ⊢
    exact hsub x hx
  have hle := Finset.card_le_card hsubf
  have h2 := List.toFinset_card_le (fs.files.map FsPath.toComponents ++ fs.dirs)
  have hlen2 : (fs.files.map FsPath.toComponents ++ fs.dirs).length = N := by
    simp [hN]
  omega

theorem get_unique_path_of_not_exists (fs : FS) (p : FsPath)
    (h : ¬ pathExists fs p) : get_unique_path fs p = p := by
  rw [get_unique_path, if_neg h]

theorem get_unique_path_of_exists (fs : FS) (p : FsPath) (h : pathExists fs p) :
    ∃ k, 1 ≤ k ∧
      get_unique_path fs p = cand p.parent (pyStem p.name) (pySuffix p.name) k ∧
      ¬ pathExists fs (cand p.parent (pyStem p.name) (pySuffix p.name) k) ∧
      ∀ j, 1 ≤ j → j < k →
        pathExists fs (cand p.parent (pyStem p.name) (pySuffix p.name) j) := by
  classical
  obtain ⟨k₀, hk1, hk2, hk3⟩ :=
    exists_free_cand fs p.parent (pyStem p.name) (pySuffix p.name)
  have hseq : ∀ j, 1 ≤ j →
      seqF p.parent (pyStem p.name) (pySuffix p.name) p 1 j =
        cand p.parent (pyStem p.name) (pySuffix p.name) j := by
    intro j hj
    cases j with
    | zero => omega
    | succ i =>
      simp only [seqF]
      congr 1
      omega
  have hQ : ∃ i, ¬ pathExists fs
      (seqF p.parent (pyStem p.name) (pySuffix p.name) p 1 i) :=
    ⟨k₀, by rw [hseq k₀ hk1]; exact hk3⟩
  have hQ0 : ¬ pathExists fs
      (seqF p.parent (pyStem p.name) (pySuffix p.name) p 1 (Nat.find hQ)) :=
    Nat.find_spec hQ
  have hmin : ∀ j, j < Nat.find hQ → pathExists fs
      (seqF p.parent (pyStem p.name) (pySuffix p.name) p 1 j) := by
    intro j hj
    exact not_not.mp (Nat.find_min hQ hj)
  have hge1 : 1 ≤ Nat.find hQ := by
    by_contra hlt
    have hz : Nat.find hQ = 0 := by omega
    rw [hz] at hQ0
    simp only [seqF] at hQ0
    exact hQ0 h
  have hle : Nat.find hQ ≤ k₀ :=
    Nat.find_min' hQ (by rw [hseq k₀ hk1]; exact hk3)
  have hfuel : Nat.find hQ < fs.files.length + fs.dirs.length + 2 := by omega
  refine ⟨Nat.find hQ, hge1, ?_, ?_, ?_⟩
  · rw [get_unique_path, if_pos h]
    rw [uniqueLoop_eq fs p.parent (pyStem p.name) (pySuffix p.name) _ p 1
      (Nat.find hQ) hfuel hQ0 hmin]
    exact hseq (Nat.find hQ) hge1
  · rw [← hseq (Nat.find hQ) hge1]
    exact hQ0
  · intro j hj1 hjk
    rw [← hseq j hj1]
    exact hmin j hjk

theorem get_unique_path_not_exists (fs : FS) (p : FsPath) :
    ¬ pathExists fs (get_unique_path fs p) := by
  by_cases h : pathExists fs p
  · obtain ⟨k, hk, heq, hfree, hmin⟩ := get_unique_path_of_exists fs p h
    rw [heq]
    exact hfree
  · rw [get_unique_path_of_not_exists fs p h]
    exact h

theorem get_unique_path_parent (fs : FS) (p : FsPath) :
    (get_unique_path fs p).parent = p.parent := by
  by_cases h : pathExists fs p
  · obtain ⟨k, hk, heq, hfree, hmin⟩ := get_unique_path_of_exists fs p h
    rw [heq]
    rfl
  · rw [get_unique_path_of_not_exists fs p h]

theorem get_unique_path_name (fs : FS) (p : FsPath) :
    get_unique_path fs p = p ∨ ∃ k, 1 ≤ k ∧
      (get_unique_path fs p).name =
        pyStem p.name ++ '_' :: (decimal k ++ pySuffix p.name) := by
  by_cases h : pathExists fs p
  · obtain ⟨k, hk, heq, hfree, hmin⟩ := get_unique_path_of_exists fs p h
    exact Or.inr ⟨k, hk, by rw [heq]; rfl⟩
  · exact Or.inl (get_unique_path_of_not_exists fs p h)

theorem FS.mkdir_files (fs : FS) (d : List Str) : (fs.mkdir d).files = fs.files := by
  unfold FS.mkdir
  split <;> rfl

theorem append_singleton_ne (src : List Str) (c : Str) : src ++ [c] ≠ src := by
  intro h
  have hl := congrArg List.length h
  simp at hl

theorem organize_skip_of (cats : CatMap) (src : List Str) (fs : FS) (p : FsPath)
    (h : skipCond cats p) :
    ∃ r, organize_file cats src fs p = (fs, .skipped r) := by
  by_cases hh : p.name.head? = some '.' ∨ p.name.head? = some '~'
  · exact ⟨.hidden, by rw [organize_file, if_pos hh]⟩
  · rcases h with h | h | h
    · exact absurd h hh
    · refine ⟨.noCategory, ?_⟩
      rw [organize_file, if_neg hh, h]
    · refine ⟨.noCategory, ?_⟩
      rw [organize_file, if_neg hh, h]
      rfl

theorem organize_moved_of (cats : CatMap) (src : List Str) (fs : FS) (p : FsPath)
    (c : Str)
    (hh : ¬(p.name.head? = some '.' ∨ p.name.head? = some '~'))
    (hc : get_file_category cats (strLower (pySuffix p.name)) = some c)
    (hne : c ≠ []) :
    organize_file cats src fs p =
      ((fs.mkdir (src ++ [c])).move p
        (get_unique_path (fs.mkdir (src ++ [c])) ⟨src ++ [c], p.name⟩),
       .moved c (get_unique_path (fs.mkdir (src ++ [c])) ⟨src ++ [c], p.name⟩).name) := by
  rw [organize_file, if_neg hh, hc]
  exact if_neg hne

theorem skipCond_of_skip (cats : CatMap) (src : List Str) (fs : FS) (p : FsPath)
    (fs' : FS) (r : SkipReason)
    (h : organize_file cats src fs p = (fs', .skipped r)) : skipCond cats p := by
  by_contra hns
  simp only [skipCond, not_or] at hns
  obtain ⟨hh, hnone, hempty⟩ := hns
  cases hcat : get_file_category cats (strLower (pySuffix p.name)) with
  | none => exact hnone hcat
  | some c =>
    have hce : c ≠ [] := fun hc => hempty (hc ▸ hcat)
    rw [organize_moved_of cats src fs p c (not_or.mpr hh) hcat hce] at h
    have h2 := congrArg Prod.snd h
    simp at h2

theorem organize_moved_inv (cats : CatMap) (src : List Str) (fs : FS) (p : FsPath)
    (fs' : FS) (c n : Str)
    (h : organize_file cats src fs p = (fs', .moved c n)) :
    ¬(p.name.head? = some '.' ∨ p.name.head? = some '~') ∧
    get_file_category cats (strLower (pySuffix p.name)) = some c ∧ c ≠ [] ∧
    fs' = (fs.mkdir (src ++ [c])).move p
      (get_unique_path (fs.mkdir (src ++ [c])) ⟨src ++ [c], p.name⟩) ∧
    n = (get_unique_path (fs.mkdir (src ++ [c])) ⟨src ++ [c], p.name⟩).name := by
  by_cases hh : p.name.head? = some '.' ∨ p.name.head? = some '~'
  · rw [organize_file, if_pos hh] at h
    have h2 := congrArg Prod.snd h
    simp at h2
  · cases hcat : get_file_category cats (strLower (pySuffix p.name)) with
    | none =>
      rw [organize_file, if_neg hh, hcat] at h
      have h2 := congrArg Prod.snd h
      simp at h2
    | some c' =>
      by_cases hce : c' = []
      · rw [organize_file, if_neg hh, hcat] at h
        replace h : ((if c' = [] then ((fs, Outcome.skipped SkipReason.noCategory) : FS × Outcome)
            else ((fs.mkdir (src ++ [c'])).move p
                (get_unique_path (fs.mkdir (src ++ [c'])) ⟨src ++ [c'], p.name⟩),
              Outcome.moved c'
                (get_unique_path (fs.mkdir (src ++ [c'])) ⟨src ++ [c'], p.name⟩).name))) =
            (fs', Outcome.moved c n) := h
        rw [if_pos hce] at h
        have h2 := congrArg Prod.snd h
        simp at h2
      · rw [organize_moved_of cats src fs p c' hh hcat hce] at h
        simp only [Prod.mk.injEq, Outcome.moved.injEq] at h
        obtain ⟨hfs, hcc, hnn⟩ := h
        subst hcc
        exact ⟨hh, rfl, hce, hfs.symm, hnn.symm⟩

theorem organize_file_shape (cats : CatMap) (src : List Str) (fs : FS) (p : FsPath) :
    (∃ r, organize_file cats src fs p = (fs, .skipped r)) ∨
    (∃ c, ∃ d : FsPath,
      get_file_category cats (strLower (pySuffix p.name)) = some c ∧
      d.parent = src ++ [c] ∧ d ∉ fs.files ∧
      (organize_file cats src fs p).1.files = d :: fs.files.erase p ∧
      (organize_file cats src fs p).2 = .moved c d.name) := by
  by_cases hsk : skipCond cats p
  · exact Or.inl (organize_skip_of cats src fs p hsk)
  · simp only [skipCond, not_or] at hsk
    obtain ⟨hh, hnone, hempty⟩ := hsk
    cases hcat : get_file_category cats (strLower (pySuffix p.name)) with
    | none => exact absurd hcat hnone
    | some c =>
      have hce : c ≠ [] := fun hc => hempty (hc ▸ hcat)
      have hmv := organize_moved_of cats src fs p c (not_or.mpr hh) hcat hce
      refine Or.inr ⟨c,
        get_unique_path (fs.mkdir (src ++ [c])) ⟨src ++ [c], p.name⟩,
        rfl, ?_, ?_, ?_, ?_⟩
      · rw [get_unique_path_parent]
      · have hfree :=
          get_unique_path_not_exists (fs.mkdir (src ++ [c])) ⟨src ++ [c], p.name⟩
        intro hmem
        apply hfree
        left
        rw [FS.mkdir_files]
        exact hmem
      · rw [hmv]
        simp [FS.move, FS.mkdir_files]
      · rw [hmv]

theorem organize_file_nodup (cats : CatMap) (src : List Str) (fs : FS) (p : FsPath)
    (h : fs.files.Nodup) : (organize_file cats src fs p).1.files.Nodup := by
  rcases organize_file_shape cats src fs p with ⟨r, hr⟩ |
    ⟨c, d, hcat, hdp, hdmem, hfiles, hout⟩
  · rw [hr]
    exact h
  · rw [hfiles]
    refine List.nodup_cons.mpr ⟨?_, h.erase p⟩
    intro hmem
    exact hdmem (List.mem_of_mem_erase hmem)

theorem sweepGo_skipCond (cats : CatMap) (src : List Str) :
    ∀ (l : List FsPath) (fs : FS) (n : Nat), fs.files.Nodup →
      (∀ q ∈ fs.files, q.parent = src → skipCond cats q ∨ q ∈ l) →
      ∀ q ∈ (sweepGo cats src l fs n).1.files, q.parent = src →
        skipCond cats q := by
  intro l
  induction l with
  | nil =>
    intro fs n hnd hinv q hq hqp
    simp only [sweepGo] at hq
    rcases hinv q hq hqp with hs | hs
    · exact hs
    · cases hs
  | cons q0 rest ih =>
    intro fs n hnd hinv q hq hqp
    by_cases hsk : skipCond cats q0
    · obtain ⟨r, hr⟩ := organize_skip_of cats src fs q0 hsk
      have hstep : sweepGo cats src (q0 :: rest) fs n = sweepGo cats src rest fs n := by
        simp only [sweepGo]
        rw [hr]
      rw [hstep] at hq
      refine ih fs n hnd ?_ q hq hqp
      intro q' hq' hqp'
      rcases hinv q' hq' hqp' with hs | hs
      · exact Or.inl hs
      · rcases List.mem_cons.mp hs with he | he
        · exact Or.inl (he ▸ hsk)
        · exact Or.inr he
    · rcases organize_file_shape cats src fs q0 with ⟨r, hr⟩ |
        ⟨c, d, hcat, hdp, hdmem, hfiles, hout⟩
      · exact absurd (skipCond_of_skip cats src fs q0 fs r hr) hsk
      · have hpair : organize_file cats src fs q0 =
            ((organize_file cats src fs q0).1, Outcome.moved c d.name) := by
          rw [← hout]
        have hstep : sweepGo cats src (q0 :: rest) fs n =
            sweepGo cats src rest (organize_file cats src fs q0).1 (n + 1) := by
          simp only [sweepGo]
          rw [hpair]
        rw [hstep] at hq
        refine ih (organize_file cats src fs q0).1 (n + 1)
          (organize_file_nodup cats src fs q0 hnd) ?_ q hq hqp
        intro q' hq' hqp'
        rw [hfiles] at hq'
        rcases List.mem_cons.mp hq' with he | he
        · exfalso
          apply append_singleton_ne src c
          rw [← hdp]
          rw [he] at hqp'
          exact hqp'
        · have hq'' : q' ∈ fs.files := List.mem_of_mem_erase he
          have hne : q' ≠ q0 := ((List.Nodup.mem_erase_iff hnd).mp he).1
          rcases hinv q' hq'' hqp' with hs | hs
          · exact Or.inl hs
          · rcases List.mem_cons.mp hs with he2 | he2
            · exact absurd he2 hne
            · exact Or.inr he2

theorem sweepGo_of_all_skip (cats : CatMap) (src : List Str) :
    ∀ (l : List FsPath) (fs : FS) (n : Nat), (∀ q ∈ l, skipCond cats q) →
      sweepGo cats src l fs n = (fs, n) := by
  intro l
  induction l with
  | nil => intro fs n h; rfl
  | cons q0 rest ih =>
    intro fs n h
    obtain ⟨r, hr⟩ := organize_skip_of cats src fs q0 (h q0 (List.mem_cons_self _ _))
    have hstep : sweepGo cats src (q0 :: rest) fs n = sweepGo cats src rest fs n := by
      simp only [sweepGo]
      rw [hr]
    rw [hstep]
    exact ih fs n (fun q hq => h q (List.mem_cons_of_mem _ hq))

theorem get_file_category_eq_some_iff (cats : CatMap) (e c : Str) :
    get_file_category cats e = some c ↔
      ∃ i, ∃ h : i < cats.length, (cats.get ⟨i, h⟩).1 = c ∧
        e ∈ (cats.get ⟨i, h⟩).2 ∧ ∀ q ∈ cats.take i, e ∉ q.2 := by
  induction cats with
  | nil => simp [get_file_category]
  | cons hd rest ih =>
    obtain ⟨c₀, x₀⟩ := hd
    by_cases he : e ∈ x₀
    · simp only [get_file_category, if_pos he]
      constructor
      · intro h
        have hc : c₀ = c := by injection h
        exact ⟨0, by simp, by simpa using hc, by simpa using he, by simp⟩
      · rintro ⟨i, hi, h1, h2, h3⟩
        cases i with
        | zero =>
          have hc : c₀ = c := h1
          rw [hc]
        | succ j =>
          exfalso
          exact h3 (c₀, x₀) (by simp [List.take_succ_cons]) he
    · simp only [get_file_category, if_neg he]
      rw [ih]
      constructor
      · rintro ⟨i, hi, h1, h2, h3⟩
        refine ⟨i + 1, by simpa using Nat.succ_lt_succ hi, ?_, ?_, ?_⟩
        · simpa using h1
        · simpa using h2
        · intro q hq
          rcases List.mem_cons.mp (by simpa [List.take_succ_cons] using hq) with hq1 | hq1
          · rw [hq1]
            exact he
          · exact h3 q hq1
      · rintro ⟨i, hi, h1, h2, h3⟩
        cases i with
        | zero =>
          exfalso
          exact he (by simpa using h2)
        | succ j =>
          have hj : j < rest.length := by simpa using hi
          refine ⟨j, hj, ?_, ?_, ?_⟩
          · simpa using h1
          · simpa using h2
          · intro q hq
            exact h3 q (by simp only [List.take_succ_cons, List.mem_cons]; exact Or.inr hq)

theorem get_file_category_eq_none (cats : CatMap) (e : Str)
    (h : ∀ q ∈ cats, e ∉ q.2) : get_file_category cats e = none := by
  induction cats with
  | nil => rfl
  | cons hd rest ih =>
    obtain ⟨c₀, x₀⟩ := hd
    have he : e ∉ x₀ := h (c₀, x₀) (List.mem_cons_self _ _)
    simp only [get_file_category, if_neg he]
    exact ih (fun q hq => h q (List.mem_cons_of_mem _ hq))

theorem get_file_category_of_unique (cats : CatMap) (e c : Str) (exts : List Str)
    (h : cats.filter (fun pr => decide (e ∈ pr.2)) = [(c, exts)]) :
    get_file_category cats e = some c := by
  induction cats with
  | nil => simp at h
  | cons hd rest ih =>
    obtain ⟨c₀, x₀⟩ := hd
    by_cases he : e ∈ x₀
    · rw [List.filter_cons_of_pos (by simpa using he)] at h
      simp only [List.cons.injEq, Prod.mk.injEq] at h
      obtain ⟨⟨hc, hx⟩, hrest⟩ := h
      simp only [get_file_category, if_pos he, hc]
    · rw [List.filter_cons_of_neg (by simpa using he)] at h
      simp only [get_file_category, if_neg he]
      exact ih h

theorem organize_fileE_failed_files (env : IOEnv) (cats : CatMap) (src : List Str)
    (fs : FS) (p : FsPath) (fs' : FS) (m : Str)
    (h : organize_fileE env cats src fs p = (fs', .failed m)) :
    fs'.files = fs.files := by
  by_cases hh : p.name.head? = some '.' ∨ p.name.head? = some '~'
  · rw [organize_fileE, if_pos hh] at h
    have h2 := congrArg Prod.snd h
    simp at h2
  · cases hcat : get_file_category cats (strLower (pySuffix p.name)) with
    | none => simp [organize_fileE, hh, hcat] at h
    | some c =>
      by_cases hce : c = []
      · simp [organize_fileE, hh, hcat, hce] at h
      · cases hmk : env.mkdirErr with
        | some m0 =>
          simp [organize_fileE, hh, hcat, hce, hmk] at h
          obtain ⟨h1, h2⟩ := h
          rw [← h1]
        | none =>
          cases hun : env.uniqueErr with
          | some m0 =>
            simp [organize_fileE, hh, hcat, hce, hmk, hun] at h
            obtain ⟨h1, h2⟩ := h
            rw [← h1, FS.mkdir_files]
          | none =>
            cases hmv : env.moveErr with
            | some m0 =>
              simp [organize_fileE, hh, hcat, hce, hmk, hun, hmv] at h
              obtain ⟨h1, h2⟩ := h
              rw [← h1, FS.mkdir_files]
            | none =>
              simp [organize_fileE, hh, hcat, hce, hmk, hun, hmv] at h

theorem monitorLoop_length (cats : CatMap) (src : List Str) :
    ∀ (events : List (IOEnv × FsPath)) (fs : FS),
      (monitorLoop cats src events fs).2.length = events.length := by
  intro events
  induction events with
  | nil => intro fs; rfl
  | cons e rest ih =>
    intro fs
    obtain ⟨env, p⟩ := e
    simp [monitorLoop, ih]

theorem monitorLoop_append (cats : CatMap) (src : List Str) :
    ∀ (evs1 evs2 : List (IOEnv × FsPath)) (fs : FS),
      (monitorLoop cats src (evs1 ++ evs2) fs).2 =
        (monitorLoop cats src evs1 fs).2 ++
        (monitorLoop cats src evs2 (monitorLoop cats src evs1 fs).1).2 := by
  intro evs1
  induction evs1 with
  | nil => intro evs2 fs; rfl
  | cons e rest ih =>
    intro evs2 fs
    obtain ⟨env, p⟩ := e
    simp only [List.cons_append, monitorLoop, List.append_eq]
    rw [ih]

/-- C1: organizing a top-level file either leaves the filesystem unchanged
with a Skipped outcome, or moves the file into exactly one immediate
subdirectory named after its classified category, at a destination that did
not previously exist (no file is overwritten); and organizing two files with
identical base names and the same destination category — the second
appearing at top level after the first has been moved — produces two
distinct final paths, both present afterwards. -/
theorem organize_single_category_no_overwrite (cats : CatMap) (src : List Str)
    (fs : FS) (p p₂ : FsPath) :
    ((∃ r, organize_file cats src fs p = (fs, .skipped r)) ∨
     (∃ c, ∃ d : FsPath,
       get_file_category cats (strLower (pySuffix p.name)) = some c ∧
       d.parent = src ++ [c] ∧ d ∉ fs.files ∧
       (organize_file cats src fs p).1.files = d :: fs.files.erase p ∧
       (organize_file cats src fs p).2 = .moved c d.name)) ∧
    (∀ (fs₁ : FS) (c₁ n₁ : Str) (fs₂ : FS) (c₂ n₂ : Str),
      p₂.name = p.name → p.parent = src → p₂.parent = src →
      organize_file cats src fs p = (fs₁, .moved c₁ n₁) →
      organize_file cats src ⟨p₂ :: fs₁.files, fs₁.dirs⟩ p₂ = (fs₂, .moved c₂ n₂) →
      c₂ = c₁ ∧ ∃ d₁ d₂ : FsPath, d₁ ≠ d₂ ∧ d₁ ∈ fs₂.files ∧ d₂ ∈ fs₂.files ∧
        d₁.name = n₁ ∧ d₂.name = n₂ ∧
        d₁.parent = src ++ [c₁] ∧ d₂.parent = src ++ [c₁]) := by
  constructor
  · exact organize_file_shape cats src fs p
  · intro fs₁ c₁ n₁ fs₂ c₂ n₂ hname hp hp₂ h1 h2
    obtain ⟨hh1, hcat1, hce1, hfs1, hn1⟩ :=
      organize_moved_inv cats src fs p fs₁ c₁ n₁ h1
    obtain ⟨hh2, hcat2, hce2, hfs2, hn2⟩ :=
      organize_moved_inv cats src ⟨p₂ :: fs₁.files, fs₁.dirs⟩ p₂ fs₂ c₂ n₂ h2
    have hcc : c₂ = c₁ := by
      rw [hname] at hcat2
      rw [hcat1] at hcat2
      injection hcat2 with hq
      exact hq.symm
    subst hcc
    refine ⟨rfl, get_unique_path (fs.mkdir (src ++ [c₂])) ⟨src ++ [c₂], p.name⟩,
      get_unique_path ((FS.mk (p₂ :: fs₁.files) fs₁.dirs).mkdir (src ++ [c₂]))
        ⟨src ++ [c₂], p₂.name⟩, ?_, ?_, ?_, hn1.symm, hn2.symm, ?_, ?_⟩
    · intro hdd
      have hfree := get_unique_path_not_exists
        ((FS.mk (p₂ :: fs₁.files) fs₁.dirs).mkdir (src ++ [c₂]))
        ⟨src ++ [c₂], p₂.name⟩
      apply hfree
      left
      rw [FS.mkdir_files]
      show _ ∈ p₂ :: fs₁.files
      apply List.mem_cons_of_mem
      rw [← hdd, hfs1]
      show _ ∈ _ :: _
      exact List.mem_cons_self _ _
    · rw [hfs2]
      show _ ∈ (_ : FS).files
      simp only [FS.move, FS.mkdir_files]
      show _ ∈ _ :: ((p₂ :: fs₁.files).erase p₂)
      rw [List.erase_cons_head]
      apply List.mem_cons_of_mem
      rw [hfs1]
      exact List.mem_cons_self _ _
    · rw [hfs2]
      simp only [FS.move, FS.mkdir_files]
      exact List.mem_cons_self _ _
    · rw [get_unique_path_parent]
    · rw [get_unique_path_parent]

/-- C1 witness: the same `a.jpg` organized twice (Images/a.jpg then
Images/a_1.jpg) yields two distinct destinations, both present. -/
theorem organize_single_category_no_overwrite_witness :
    ("Images".data : Str) = "Images".data ∧ ∃ d₁ d₂ : FsPath, d₁ ≠ d₂ ∧
      d₁ ∈ (organize_file scenCats scenSrc
        ⟨w1P :: (organize_file scenCats scenSrc w1Fs w1P).1.files,
         (organize_file scenCats scenSrc w1Fs w1P).1.dirs⟩ w1P).1.files ∧
      d₂ ∈ (organize_file scenCats scenSrc
        ⟨w1P :: (organize_file scenCats scenSrc w1Fs w1P).1.files,
         (organize_file scenCats scenSrc w1Fs w1P).1.dirs⟩ w1P).1.files ∧
      d₁.name = "a.jpg".data ∧ d₂.name = "a_1.jpg".data ∧
      d₁.parent = scenSrc ++ ["Images".data] ∧
      d₂.parent = scenSrc ++ ["Images".data] :=
  (organize_single_category_no_overwrite scenCats scenSrc w1Fs w1P w1P).2
    (organize_file scenCats scenSrc w1Fs w1P).1 "Images".data "a.jpg".data
    (organize_file scenCats scenSrc
      ⟨w1P :: (organize_file scenCats scenSrc w1Fs w1P).1.files,
       (organize_file scenCats scenSrc w1Fs w1P).1.dirs⟩ w1P).1
    "Images".data "a_1.jpg".data rfl rfl rfl (by decide) (by decide)

/-- C2: `_get_unique_path` returns its argument unchanged when nothing exists
at that path, and otherwise returns the candidate `stem_k.suffix` for the
smallest counter `k ≥ 1` whose path does not exist; in particular, with
`source/Images/a.jpg` already present, organizing a fresh top-level `a.jpg`
yields the outcome Moved("Images", "a_1.jpg"). -/
theorem collision_safe_destination (fs : FS) (p : FsPath) :
    (¬ pathExists fs p → get_unique_path fs p = p) ∧
    (pathExists fs p → ∃ k, 1 ≤ k ∧
      get_unique_path fs p = cand p.parent (pyStem p.name) (pySuffix p.name) k ∧
      ¬ pathExists fs (cand p.parent (pyStem p.name) (pySuffix p.name) k) ∧
      ∀ j, 1 ≤ j → j < k →
        pathExists fs (cand p.parent (pyStem p.name) (pySuffix p.name) j)) ∧
    (organize_file scenCats scenSrc scenFs scenP).2 =
      .moved "Images".data "a_1.jpg".data := by
  refine ⟨get_unique_path_of_not_exists fs p, get_unique_path_of_exists fs p, ?_⟩
  decide

/-- C2 witness: the occupied destination `source/Images/a.jpg` is renamed to
the least free candidate. -/
theorem collision_safe_destination_witness :
    pathExists scenFs scenDest ∧
    (∃ k, 1 ≤ k ∧
      get_unique_path scenFs scenDest =
        cand scenDest.parent (pyStem scenDest.name) (pySuffix scenDest.name) k ∧
      ¬ pathExists scenFs
        (cand scenDest.parent (pyStem scenDest.name) (pySuffix scenDest.name) k) ∧
      ∀ j, 1 ≤ j → j < k → pathExists scenFs
        (cand scenDest.parent (pyStem scenDest.name) (pySuffix scenDest.name) j)) :=
  ⟨by decide, (collision_safe_destination scenFs scenDest).2.1 (by decide)⟩

/-- C3: a file whose base name starts with `.` or `~` is skipped by the
hidden/system check, before classification and with the filesystem left
completely unchanged, for every category map. -/
theorem hidden_files_never_moved (cats : CatMap) (src : List Str) (fs : FS)
    (p : FsPath) (h : p.name.head? = some '.' ∨ p.name.head? = some '~') :
    organize_file cats src fs p = (fs, .skipped .hidden) := by
  rw [organize_file, if_pos h]

/-- C3 witness: `.secret.jpg` is skipped even though `.jpg` is mapped. -/
theorem hidden_files_never_moved_witness :
    (((FsPath.mk ["source".data] ".secret.jpg".data).name.head? = some '.') ∨
      ((FsPath.mk ["source".data] ".secret.jpg".data).name.head? = some '~')) ∧
    organize_file scenCats scenSrc w1Fs ⟨["source".data], ".secret.jpg".data⟩ =
      (w1Fs, .skipped .hidden) :=
  ⟨by decide, hidden_files_never_moved scenCats scenSrc w1Fs
    ⟨["source".data], ".secret.jpg".data⟩ (by decide)⟩

/-- C4: an I/O failure in directory creation, collision-path computation or
the move produces a Failed outcome with the regular files — in particular
the source file — left untouched, and the monitoring loop still handles one
outcome per event and keeps processing all subsequent events. -/
theorem failures_reported_and_loop_continues :
    (∀ (env : IOEnv) (cats : CatMap) (src : List Str) (fs : FS) (p : FsPath)
        (fs' : FS) (m : Str),
      organize_fileE env cats src fs p = (fs', .failed m) →
        fs'.files = fs.files) ∧
    (∀ (cats : CatMap) (src : List Str) (events : List (IOEnv × FsPath)) (fs : FS),
      (monitorLoop cats src events fs).2.length = events.length) ∧
    (∀ (cats : CatMap) (src : List Str) (evs1 evs2 : List (IOEnv × FsPath)) (fs : FS),
      (monitorLoop cats src (evs1 ++ evs2) fs).2 =
        (monitorLoop cats src evs1 fs).2 ++
        (monitorLoop cats src evs2 (monitorLoop cats src evs1 fs).1).2) :=
  ⟨fun env cats src fs p fs' m h =>
      organize_fileE_failed_files env cats src fs p fs' m h,
   fun cats src events fs => monitorLoop_length cats src events fs,
   fun cats src evs1 evs2 fs => monitorLoop_append cats src evs1 evs2 fs⟩

/-- C4 witness: a failing move reports Failed("disk full") and leaves the
source file in place. -/
theorem failures_reported_and_loop_continues_witness :
    organize_fileE wEnv scenCats scenSrc w1Fs w1P =
      ((organize_fileE wEnv scenCats scenSrc w1Fs w1P).1,
        .failed "disk full".data) ∧
    (organize_fileE wEnv scenCats scenSrc w1Fs w1P).1.files = w1Fs.files :=
  ⟨by decide, failures_reported_and_loop_continues.1 wEnv scenCats scenSrc w1Fs
    w1P (organize_fileE wEnv scenCats scenSrc w1Fs w1P).1 "disk full".data
    (by decide)⟩

/-- C5: classify lowercases the input extension and returns the first
category, in the map's iteration order, whose extension set contains the
lowercased input; hence an extension contained in exactly one category's set
is classified to that category whatever the input's letter case. -/
theorem classify_lowercases_first_match (cats : CatMap) (x : Str) :
    (∀ c, classify cats x = some c ↔
      ∃ i, ∃ h : i < cats.length, (cats.get ⟨i, h⟩).1 = c ∧
        strLower x ∈ (cats.get ⟨i, h⟩).2 ∧ ∀ q ∈ cats.take i, strLower x ∉ q.2) ∧
    (∀ (e c : Str) (exts : List Str), strLower x = e →
      cats.filter (fun pr => decide (e ∈ pr.2)) = [(c, exts)] →
      classify cats x = some c) := by
  constructor
  · intro c
    exact get_file_category_eq_some_iff cats (strLower x) c
  · intro e c exts hx hu
    rw [classify, hx]
    exact get_file_category_of_unique cats e c exts hu

/-- C5 witness: `.JPG` is classified to Images, whose set holds `.jpg`. -/
theorem classify_lowercases_first_match_witness :
    strLower ".JPG".data = ".jpg".data ∧
    w5Cats.filter (fun pr => decide ((".jpg".data : Str) ∈ pr.2)) =
      [("Images".data, [".jpg".data])] ∧
    classify w5Cats ".JPG".data = some "Images".data :=
  ⟨by decide, by decide,
   (classify_lowercases_first_match w5Cats ".JPG".data).2 ".jpg".data
     "Images".data [".jpg".data] (by decide) (by decide)⟩

/-- C6: a file whose lowercased extension occurs in no category's set is
classified to `none` and organizing it is a Skipped no-op: the filesystem —
in particular the file's original path — is unchanged. -/
theorem unmatched_extension_skipped (cats : CatMap) (src : List Str) (fs : FS)
    (q : FsPath) (h : ∀ pr ∈ cats, strLower (pySuffix q.name) ∉ pr.2) :
    classify cats (pySuffix q.name) = none ∧
    ∃ r, organize_file cats src fs q = (fs, .skipped r) := by
  have hn : get_file_category cats (strLower (pySuffix q.name)) = none :=
    get_file_category_eq_none cats _ h
  exact ⟨hn, organize_skip_of cats src fs q (Or.inr (Or.inl hn))⟩

/-- C6 witness: `notes.txt` under a map with no `.txt` entry is skipped in
place (Scenario C). -/
theorem unmatched_extension_skipped_witness :
    (∀ pr ∈ scenCats,
      strLower (pySuffix (FsPath.mk ["source".data] "notes.txt".data).name) ∉
        pr.2) ∧
    (classify scenCats
        (pySuffix (FsPath.mk ["source".data] "notes.txt".data).name) = none ∧
      ∃ r, organize_file scenCats scenSrc w6Fs
        ⟨["source".data], "notes.txt".data⟩ = (w6Fs, .skipped r)) :=
  ⟨by decide, unmatched_extension_skipped scenCats scenSrc w6Fs
    ⟨["source".data], "notes.txt".data⟩ (by decide)⟩

/-- C7: the sweep is idempotent — after one sweep of a duplicate-free source
directory, sweeping again moves nothing: the filesystem is unchanged and the
organized count is zero, because every remaining top-level file is one the
sweep skips and category subdirectories are never descended into. -/
theorem sweep_idempotent (cats : CatMap) (src : List Str) (fs : FS)
    (h : fs.files.Nodup) :
    organize_existing_files cats src (organize_existing_files cats src fs).1 =
      ((organize_existing_files cats src fs).1, 0) := by
  have hskip : ∀ q ∈ (organize_existing_files cats src fs).1.files,
      q.parent = src → skipCond cats q := by
    apply sweepGo_skipCond cats src _ fs 0 h
    intro q hq hqp
    right
    rw [List.mem_filter]
    exact ⟨hq, by simp [hqp]⟩
  rw [organize_existing_files]
  apply sweepGo_of_all_skip
  intro q hq
  rw [List.mem_filter] at hq
  obtain ⟨hq1, hq2⟩ := hq
  exact hskip q hq1 (by simpa using hq2)

/-- C7 witness: a directory with one classifiable and one unclassifiable
file is stable under a second sweep. -/
theorem sweep_idempotent_witness :
    w7Fs.files.Nodup ∧
    organize_existing_files scenCats ["s".data]
        (organize_existing_files scenCats ["s".data] w7Fs).1 =
      ((organize_existing_files scenCats ["s".data] w7Fs).1, 0) :=
  ⟨by decide, sweep_idempotent scenCats ["s".data] w7Fs (by decide)⟩

/-- C8: a start request while a session is already running is a warning
no-op: the folder, worker session and filesystem are unchanged (no sweep
runs, no second session is created) and the only effect is one appended
warning — not error — log message. -/
theorem start_while_running_warns (cats : CatMap) (s : AppState)
    (h : s.worker = some true) :
    (start_monitoring cats s).source_folder = s.source_folder ∧
    (start_monitoring cats s).worker = s.worker ∧
    (start_monitoring cats s).fs = s.fs ∧
    ∃ m, (start_monitoring cats s).log = s.log ++ [(Level.warning, m)] := by
  cases hsf : s.source_folder with
  | none =>
    have heq : start_monitoring cats s =
        { s with log := s.log ++
            [(Level.warning, "Please select a folder first!".data)] } := by
      rw [start_monitoring, hsf]
    rw [heq]
    exact ⟨hsf, rfl, rfl, _, rfl⟩
  | some src =>
    have heq : start_monitoring cats s =
        { s with log := s.log ++
            [(Level.warning, "Monitoring is already running!".data)] } := by
      rw [start_monitoring, hsf, h]
    rw [heq]
    exact ⟨hsf, rfl, rfl, _, rfl⟩

/-- C8 witness: a concrete running state rejects a second start with a
warning only. -/
theorem start_while_running_warns_witness :
    w8State.worker = some true ∧
    ((start_monitoring scenCats w8State).source_folder = w8State.source_folder ∧
     (start_monitoring scenCats w8State).worker = w8State.worker ∧
     (start_monitoring scenCats w8State).fs = w8State.fs ∧
     ∃ m, (start_monitoring scenCats w8State).log =
       w8State.log ++ [(Level.warning, m)]) :=
  ⟨rfl, start_while_running_warns scenCats w8State rfl⟩

/-- C9: selecting a directory that is not both readable and writable is
rejected: an error is logged, the SourceDirectory keeps its previous value,
and no monitoring session is started. -/
theorem inaccessible_folder_rejected (rd wr : List Str → Bool) (s : AppState)
    (f : List Str) (h : ¬(rd f = true ∧ wr f = true)) :
    (select_folder rd wr s (some f)).source_folder = s.source_folder ∧
    (select_folder rd wr s (some f)).worker = s.worker ∧
    (select_folder rd wr s (some f)).log =
      s.log ++ [(Level.error, "Selected folder is not accessible!".data)] := by
  have hcond : (rd f && wr f) = false := by
    cases hr : rd f
    · simp
    · cases hw : wr f
      · simp
      · exact absurd ⟨hr, hw⟩ h
  have heq : select_folder rd wr s (some f) =
      { s with log := s.log ++
          [(Level.error, "Selected folder is not accessible!".data)] } := by
    simp [select_folder, hcond]
  rw [heq]
  exact ⟨rfl, rfl, rfl⟩

/-- C9 witness: a concrete unwritable directory is rejected without setting
the source folder or starting a session. -/
theorem inaccessible_folder_rejected_witness :
    ¬((fun _ : List Str => false) ["t".data] = true ∧
      (fun _ : List Str => true) ["t".data] = true) ∧
    ((select_folder (fun _ => false) (fun _ => true) w8State
        (some ["t".data])).source_folder = w8State.source_folder ∧
     (select_folder (fun _ => false) (fun _ => true) w8State
        (some ["t".data])).worker = w8State.worker ∧
     (select_folder (fun _ => false) (fun _ => true) w8State
        (some ["t".data])).log = w8State.log ++
          [(Level.error, "Selected folder is not accessible!".data)]) :=
  ⟨by simp, inaccessible_folder_rejected (fun _ => false) (fun _ => true)
    w8State ["t".data] (by simp)⟩

/-- C10 counterexample: for the existing file `d/a.` (pathlib suffix `""`),
the collision-resolved path is `d/a._1`, whose pathlib suffix is `"._1"` —
the returned path does NOT keep the extension of the input, so the claim as
stated fails. -/
theorem collision_rename_suffix_cex :
    pySuffix (get_unique_path w10Fs w10P).name ≠ pySuffix w10P.name := by
  decide

/-- C10 (amended): the collision-resolved path keeps the parent directory;
its name is the original name or the original stem followed by `_k` (and the
original suffix) for some `k ≥ 1`; and whenever the input's name does not
end in a dot, the returned path keeps the input's suffix. -/
theorem collision_rename_shape (fs : FS) (p : FsPath) :
    (get_unique_path fs p).parent = p.parent ∧
    (get_unique_path fs p = p ∨ ∃ k, 1 ≤ k ∧
      (get_unique_path fs p).name =
        pyStem p.name ++ '_' :: (decimal k ++ pySuffix p.name)) ∧
    (p.name.getLast? ≠ some '.' →
      pySuffix (get_unique_path fs p).name = pySuffix p.name) := by
  refine ⟨get_unique_path_parent fs p, get_unique_path_name fs p, ?_⟩
  intro hlast
  rcases get_unique_path_name fs p with h | ⟨k, hk, hname⟩
  · rw [h]
  · rw [hname]
    exact pySuffix_candName p.name k hlast

/-- C10 witness: the renamed collided `a.jpg` keeps its `.jpg` suffix. -/
theorem collision_rename_shape_witness :
    scenDest.name.getLast? ≠ some '.' ∧
    pySuffix (get_unique_path scenFs scenDest).name = pySuffix scenDest.name :=
  ⟨by decide, (collision_rename_shape scenFs scenDest).2.2 (by decide)⟩
